import Mathlib

/-!
Verification development for the soyshell expression parser/evaluator
(`src/Parser.c`).  C strings are modelled as lists of byte values
(`List Nat`); the NUL terminator is implicit (reading past the end of a
list yields 0, matching the terminator byte).  The fixed `BUFF_MAX = 1024`
buffers of the C code are modelled as unbounded lists; theorems about
whole-string processing therefore carry a `length ≤ 1023` hypothesis where
the C code would otherwise overflow its buffers.  Where the C code performs
an out-of-bounds or negative-length copy (undefined behavior), the model
returns an explicit `ub` outcome.
-/

namespace Soyshell

/-- Byte value of a character. -/
def ofStr (s : String) : List Nat := s.data.map (fun c => c.toNat)

/-- ctype `isspace` in the C locale: space, \t, \n, \v, \f, \r. -/
def isspace (c : Nat) : Bool := c = 32 || (9 ≤ c && c ≤ 13)

/-- ctype `isalpha` in the C locale (ASCII letters). -/
def isalpha (c : Nat) : Bool := (65 ≤ c && c ≤ 90) || (97 ≤ c && c ≤ 122)

/-- ctype `isalnum` in the C locale (ASCII letters and digits). -/
def isalnum (c : Nat) : Bool := isalpha c || (48 ≤ c && c ≤ 57)

/-- `s[i]` on a C string: reading at or past the end yields the NUL byte 0. -/
def at0 (s : List Nat) (i : Nat) : Nat := s.getD i 0

/-- The substring `s[a..b)` of a byte string. -/
def substr (s : List Nat) (a b : Nat) : List Nat := (s.drop a).take (b - a)

/-- The global constant table `consts`: an ordered list of key/value pairs
(`char ***consts` in the source). -/
abbrev ConstTbl := List (List Nat × List Nat)

/-- `init` (src/Parser.c:50-65): seeds the table with a `PATH` entry whose
value is the current working directory with `/bin` appended.  The working
directory is a parameter of the model. -/
def init (cwd : List Nat) : ConstTbl := [(ofStr "PATH", cwd ++ ofStr "/bin")]

/-- `addConst` (src/Parser.c:80-117): define a constant.  Returns the C
function's `bool` result together with the table after the call.  Length
checks on key and value come first, then the identifier checks; only then
is the pair appended (unconditionally — no duplicate check). -/
def addConst (tbl : ConstTbl) (key val : List Nat) : Bool × ConstTbl :=
  if key.length > 1023 then (false, tbl)
  else if val.length > 1023 then (false, tbl)
  else if !isalpha (at0 key 0) then (false, tbl)
  else if !(key.drop 1).all (fun c => isalnum c) then (false, tbl)
  else (true, tbl ++ [(key, val)])

/-- `getConst` (src/Parser.c:123-132): linear search from index 0, first
match wins; a missing key yields the blank string. -/
def getConst : ConstTbl → List Nat → List Nat
  | [], _ => []
  | (k, v) :: rest, key => if key = k then v else getConst rest key

/-- `isOp` (src/Parser.c:135-160): length > 2 is rejected; a single
character is an operator exactly when it is `;`; otherwise the token is
compared against the two-character operators `&&` and `||`.  Note that `=`
is not recognized. -/
def isOp (s : List Nat) : Bool :=
  if s.length > 2 then false
  else if s.length = 1 then at0 s 0 = 59
  else s = [38, 38] || s = [124, 124]

/-- `isPipe` (src/Parser.c:163-164): a token whose first character is `|`. -/
def isPipe (s : List Nat) : Bool := at0 s 0 = 124

/-- `containsOp` (src/Parser.c:166-184): scans every position `i`, testing
the 1-character substring at `i` and, when at least two characters remain,
the 2-character substring at `i`, with `isOp`. -/
def containsOp : List Nat → Bool
  | [] => false
  | c :: rest =>
    isOp [c] ||
    (match rest with
     | d :: _ => isOp [c, d]
     | [] => false) ||
    containsOp rest

/-- Loop body of `matchBrace` (src/Parser.c:194-203): starting with one
open brace, advance `i` while the count is positive and `i < maxPos`,
adjusting the count at each new character.  The first argument counts the
remaining scan positions (`maxPos - i`), making the recursion structural:
when it is 0 the loop guard `i < maxPos` is false. -/
def mbGo (s : List Nat) : Nat → Nat → Nat → Nat → Option Nat
  | 0, count, i, _ => if count = 0 then some i else none
  | fuel + 1, count, i, maxPos =>
    if count = 0 then some i
    else if i < maxPos then
      let c := at0 s (i + 1)
      mbGo s fuel (if c = 123 then count + 1 else if c = 125 then count - 1 else count)
        (i + 1) maxPos
    else none

/-- `matchBrace` (src/Parser.c:187-211): given the index `pos` of a `{`,
return the index of the closing brace that balances it, scanning no
further than `maxPos`; `none` models the C function's `false` return. -/
def matchBrace (s : List Nat) (pos maxPos : Nat) : Option Nat :=
  if at0 s pos ≠ 123 then none
  else mbGo s (maxPos - pos) 1 pos maxPos

/-- The whitespace trimming performed at the top of every parser
(src/Parser.c:259-262 and the analogous loops elsewhere): drop leading and
trailing whitespace; an all-whitespace string collapses to the empty
string, which the C code signals by `pos1 > pos2`. -/
def cTrim (l : List Nat) : List Nat :=
  ((l.dropWhile isspace).reverse.dropWhile isspace).reverse

/-- The operator scan loop of `parseExpr` (src/Parser.c:277-293): skip
whitespace, read the next whitespace-delimited token, and stop at the
first token that `isOp` accepts.  Returns the characters consumed before
the operator token, the operator token, and the remainder after it. -/
def scanForOpGo : Nat → List Nat → Option (List Nat × List Nat × List Nat)
  | 0, _ => none
  | fuel + 1, cs =>
    let sp := cs.takeWhile isspace
    let rest := cs.dropWhile isspace
    let tok := rest.takeWhile (fun c => !isspace c)
    let rest2 := rest.dropWhile (fun c => !isspace c)
    if tok = [] then none
    else if isOp tok then some (sp, tok, rest2)
    else
      match scanForOpGo fuel rest2 with
      | none => none
      | some (pre, op, post) => some (sp ++ tok ++ pre, op, post)

/-- The operator scan loop wrapper: every iteration consumes at least one
character, so `length + 1` steps always reach the loop's own exit. -/
def scanForOp (cs : List Nat) : Option (List Nat × List Nat × List Nat) :=
  scanForOpGo (cs.length + 1) cs

/-- Spec-level whitespace tokenization (no counterpart in the source; it
renders the spec's phrase "whitespace-delimited token" for comparison with
`parseExpr`'s index scan): the list of maximal nonempty runs of
non-whitespace characters. -/
def wsTokens (cs : List Nat) : List (List Nat) :=
  if h : (cs.dropWhile isspace).takeWhile (fun c => !isspace c) = [] then []
  else
    ((cs.dropWhile isspace).takeWhile (fun c => !isspace c)) ::
      wsTokens ((cs.dropWhile isspace).dropWhile (fun c => !isspace c))
termination_by cs.length
decreasing_by
  have h1 : ((cs.dropWhile isspace).takeWhile (fun c => !isspace c)).length +
      ((cs.dropWhile isspace).dropWhile (fun c => !isspace c)).length =
      (cs.dropWhile isspace).length := by
    have h0 := congrArg List.length (List.takeWhile_append_dropWhile
      (p := fun c => !isspace c) (l := cs.dropWhile isspace))
    simp only [List.length_append] at h0
    exact h0
  have h2 : (cs.dropWhile isspace).length ≤ cs.length := by
    have h0 := congrArg List.length (List.takeWhile_append_dropWhile
      (p := isspace) (l := cs))
    simp only [List.length_append] at h0
    omega
  have h3 : 0 < ((cs.dropWhile isspace).takeWhile (fun c => !isspace c)).length :=
    List.length_pos.mpr h
  omega

/-- The initial statement jump of `parseExpr` (src/Parser.c:266-275): when
the trimmed expression begins with `{`, the scan starts just past the
matching brace; otherwise it starts at the beginning. -/
def scanStart (t : List Nat) : Option Nat :=
  if at0 t 0 = 123 then (matchBrace t 0 (t.length - 1)).map (fun i => i + 1)
  else some 0

/-- `parseExpr` (src/Parser.c:241-311): split an expression into left
statement, operator and right expression.  `none` models the C `false`
return (which only happens when the leading brace cannot be matched); the
returned triple is `(s, op, e)`.  The left statement keeps the whitespace
preceding the operator token (the C code copies up to `opPos1 - 1`), and
the right expression has its leading whitespace skipped
(src/Parser.c:305-309). -/
def parseExpr (expr : List Nat) : Option (List Nat × List Nat × List Nat) :=
  if expr.length = 0 then some ([], [], [])
  else
    let t := cTrim expr
    if t.length = 0 then some ([], [], [])
    else
      match scanStart t with
      | none => none
      | some j =>
        match scanForOp (t.drop j) with
        | none => some (t, [], [])
        | some (pre, op, post) =>
          some (t.take j ++ pre, op, post.dropWhile isspace)

/-- The guarded trailing-whitespace trim inside `parseS`'s braced branch
(src/Parser.c:431-432): `while (pos2 > pos1 && isspace(s[pos2])) --pos2;`.
Because the loop guard keeps `pos2 ≥ pos1`, an all-whitespace inner text
of length ≥ 1 retains exactly its first character. -/
def innerTrim (xs : List Nat) : List Nat :=
  match xs with
  | [] => []
  | h :: tail =>
    let r := ((h :: tail).reverse.dropWhile isspace).reverse
    if r = [] then [h] else r

/-- `parseS` (src/Parser.c:405-442): classify a statement.  Returns
`(ok, e, cmd, s2)` where `ok` is the C `bool` result, `e` the expression
output, `cmd` the command output, and `s2` the input string after the
in-place NUL store `s[pos2 - pos1 + 1] = 0` that each success branch
performs on its argument. -/
def parseS (s : List Nat) : Bool × List Nat × List Nat × List Nat :=
  if s.length = 0 then (false, [], [], s)
  else
    let t := cTrim s
    if containsOp s then (true, t, [], s.take t.length)
    else if at0 t 0 = 123 then
      if at0 t (t.length - 1) ≠ 125 then (false, [], [], s)
      else
        let e := innerTrim ((t.drop 1).dropLast)
        (true, e, [], s.take e.length)
    else (true, [], t, s.take t.length)

/-- C loop `while (i <= stop && isspace(s[i])) ++i;` used throughout
`parseInvoke` (src/Parser.c:473-474, 498-499, 502-503).  The fuel
argument is `stop + 1 - i`; when it is 0 the guard `i ≤ stop` is false. -/
def skipWsGo (s : List Nat) (stop : Nat) : Nat → Nat → Nat
  | 0, i => i
  | fuel + 1, i => if i ≤ stop ∧ isspace (at0 s i) then skipWsGo s stop fuel (i + 1) else i

/-- Whitespace skip from `i`, bounded by `stop` (inclusive). -/
def skipWs (s : List Nat) (i stop : Nat) : Nat := skipWsGo s stop (stop + 1 - i) i

/-- C loop `while (i <= stop && !isspace(s[i])) ++i;`
(src/Parser.c:476-477), fuel-structured like `skipWsGo`. -/
def skipTokGo (s : List Nat) (stop : Nat) : Nat → Nat → Nat
  | 0, i => i
  | fuel + 1, i => if i ≤ stop ∧ ¬isspace (at0 s i) then skipTokGo s stop fuel (i + 1) else i

/-- Token scan from `i`, bounded by `stop` (inclusive). -/
def skipTok (s : List Nat) (i stop : Nat) : Nat := skipTokGo s stop (stop + 1 - i) i

/-- C loop `while (i > 0 && isspace(s[i])) --i;` that backs up from just
before a pipe token to the end of the left command segment
(src/Parser.c:489-490).  The guard `i > 0` stops at index 0 even when
`s[0]` is whitespace.  The fuel argument is `i` itself. -/
def backWsGo (s : List Nat) : Nat → Nat → Nat
  | 0, i => i
  | fuel + 1, i => if 0 < i ∧ isspace (at0 s i) then backWsGo s fuel (i - 1) else i

/-- Backwards whitespace skip stopping at index 0. -/
def backWs (s : List Nat) (i : Nat) : Nat := backWsGo s i i

/-- Outcome of `parseInvoke`: `ok` carries the parsed command segments and
the number of pipes found; `err` models the C `false` return (dangling
pipe); `ub` marks inputs on which the C code executes
`strncpy(..., i - pos1 + 1)` with a negative count — undefined behavior
(src/Parser.c:493). -/
inductive PIResult where
  | ok : List (List Nat) → Nat → PIResult
  | err : PIResult
  | ub : PIResult
deriving DecidableEq, Repr

/-- Main loop of `parseInvoke` (src/Parser.c:471-504).  `fuel` is an upper
bound on the number of iterations; the scan index `i` strictly increases
every iteration, so `parseInvoke`'s choice of `length + 2` can never run
out (the fuel-exhausted branch is unreachable). -/
def piLoop (s : List Nat) (pos2 : Nat) : Nat → Nat → Nat → List (List Nat) → Nat → PIResult
  | 0, _, _, _, _ => .ub
  | fuel + 1, pos1, i, acc, pipes =>
    if i > pos2 then .ok (acc ++ [s.drop pos1]) pipes
    else
      let t1 := skipWs s i pos2
      let t2 := skipTok s t1 pos2
      let token := substr s t1 t2
      if isPipe token then
        if t1 = 0 then .err
        else
          let j := backWs s (t1 - 1)
          if j + 1 < pos1 then .ub
          else
            let seg := substr s pos1 (j + 1)
            let p1 := skipWs s t2 pos2
            piLoop s pos2 fuel p1 p1 (acc ++ [seg]) (pipes + 1)
      else piLoop s pos2 fuel pos1 (skipWs s t2 pos2) acc pipes

/-- C loop `while (pos2 > pos1 && isspace(s[pos2])) --pos2;` trimming
trailing whitespace (src/Parser.c:464-465 and analogues).  The fuel
argument is `pos2 - pos1`; when it is 0 the guard `pos1 < pos2` is false. -/
def trimEndGo (s : List Nat) (pos1 : Nat) : Nat → Nat → Nat
  | 0, pos2 => pos2
  | fuel + 1, pos2 =>
    if pos1 < pos2 ∧ isspace (at0 s pos2) then trimEndGo s pos1 fuel (pos2 - 1) else pos2

/-- Trailing-whitespace trim of the index range `[pos1, pos2]`. -/
def trimEndIdx (s : List Nat) (pos1 pos2 : Nat) : Nat :=
  trimEndGo s pos1 (pos2 - pos1) pos2

/-- `parseInvoke` (src/Parser.c:452-512): split an invocation into command
segments at pipe tokens.  The final segment is copied with `strcpy` from
`pos1` to the end of the C string, so trailing whitespace survives in it.
The pipe counter is only ever incremented by the C code (the caller zeroes
it), so the model starts it at 0. -/
def parseInvoke (s : List Nat) : PIResult :=
  if s.length = 0 then .ok [] 0
  else
    let pos2 := trimEndIdx s 0 (s.length - 1)
    let pos1 := skipWs s 0 pos2
    if pos1 > pos2 then .ok [] 0
    else piLoop s pos2 (s.length + 2) pos1 pos1 [] 0

/-- Zero-filled character buffer writes: store `src` at offset `pos` of
`buf`, extending with NUL bytes as needed.  Models writes into the
`char temp[BUFF_MAX] = ""` buffer of `evalArg`, whose cells are all
zero-initialized. -/
def bufWrite (buf : List Nat) (pos : Nat) (src : List Nat) : List Nat :=
  let ext := buf ++ List.replicate (pos + src.length - buf.length) 0
  ext.take pos ++ src ++ ext.drop (pos + src.length)

/-- Index of the first NUL byte in a buffer (its end-of-string position);
cells past the explicit list are implicitly NUL. -/
def firstNul : List Nat → Nat
  | [] => 0
  | c :: rest => if c = 0 then 0 else firstNul rest + 1

/-- C `strcat(buf, src)`: append `src` (and a terminating NUL) at the
first NUL of `buf`. -/
def strcatBuf (buf src : List Nat) : List Nat :=
  bufWrite buf (firstNul buf) (src ++ [0])

/-- Read a buffer as a C string: everything before the first NUL. -/
def cStr (buf : List Nat) : List Nat := buf.takeWhile (fun c => c ≠ 0)

/-- C loop `while (i < pos2 && arg[i] != '$') ++i;` scanning for the next
dollar sign (src/Parser.c:565-566), fuel-structured on `pos2 - i`. -/
def scanDollarGo (arg : List Nat) (pos2 : Nat) : Nat → Nat → Nat
  | 0, i => i
  | fuel + 1, i =>
    if i < pos2 ∧ at0 arg i ≠ 36 then scanDollarGo arg pos2 fuel (i + 1) else i

/-- Scan from `i` to the next `$` (or to `pos2`). -/
def scanDollar (arg : List Nat) (i pos2 : Nat) : Nat := scanDollarGo arg pos2 (pos2 - i) i

/-- C loop `while (keyPos2 <= pos2 && isalnum(arg[keyPos2])) ++keyPos2;`
reading the maximal alphanumeric run after a `$` (src/Parser.c:571-572);
position `pos2` holds the NUL terminator, which is not alphanumeric.
Fuel-structured on `pos2 + 1 - i`. -/
def scanKeyGo (arg : List Nat) (pos2 : Nat) : Nat → Nat → Nat
  | 0, i => i
  | fuel + 1, i =>
    if i ≤ pos2 ∧ isalnum (at0 arg i) then scanKeyGo arg pos2 fuel (i + 1) else i

/-- Scan the maximal alphanumeric run starting at `i`. -/
def scanKey (arg : List Nat) (i pos2 : Nat) : Nat := scanKeyGo arg pos2 (pos2 + 1 - i) i

/-- Main loop of `evalArg` (src/Parser.c:563-585).  Returns `none` for the
early `return arg` taken when a key exceeds `BUFF_MAX - 1` characters,
otherwise `some (pos1, temp)` at loop exit.  Each substitution copies the
text before the `$` into `temp` at the *argument's* offset `pos1`, NUL
terminates at the `$`'s offset `i`, and appends the value with `strcat` —
offsets that are only correct while `temp`'s length equals `pos1`. -/
def eaLoop (tbl : ConstTbl) (arg : List Nat) (pos2 : Nat) :
    Nat → Nat → Nat → List Nat → Option (Nat × List Nat)
  | 0, pos1, _, temp => some (pos1, temp)
  | fuel + 1, pos1, i, temp =>
    if pos1 < pos2 then
      let i2 := scanDollar arg i pos2
      if i2 = pos2 then some (pos1, temp)
      else
        let k1 := i2 + 1
        let k2 := scanKey arg k1 pos2
        if k2 - k1 > 1023 then none
        else
          let key := substr arg k1 k2
          let v := getConst tbl key
          let temp1 := bufWrite temp pos1 (substr arg pos1 i2)
          let temp2 := bufWrite temp1 i2 [0]
          let temp3 := strcatBuf temp2 v
          eaLoop tbl arg pos2 fuel k2 k2 temp3
    else some (pos1, temp)

/-- `evalArg` (src/Parser.c:552-590): expand `$name` references in an
argument using the constant table.  Returns the argument's new contents
(the C function rewrites `arg` in place via `strcpy(arg, temp)`). -/
def evalArg (tbl : ConstTbl) (arg : List Nat) : List Nat :=
  let pos2 := arg.length
  match eaLoop tbl arg pos2 (pos2 + 1) 0 0 [] with
  | none => arg
  | some (pos1, temp) =>
    cStr (if pos1 < pos2 then strcatBuf temp (arg.drop pos1) else temp)

/-- `evalInvoke` (src/Parser.c:515-546): parse the invocation and return 0.
The function's body is a stub: it returns 0 when no commands were parsed
and reaches `return 0; /* Placeholder */` otherwise — no process is ever
launched (its inner `parseCmd` loop as written does not even type-check
against `parseCmd`'s declaration, and has no effect on the table or the
result).  `none` models the crash when `parseInvoke` runs into its
negative-length copy. -/
def evalInvoke (tbl : ConstTbl) (s : List Nat) : Option Nat :=
  match parseInvoke s with
  | .ub => none
  | .err => some 0
  | .ok _ _ => some 0

/-- `evalExpr` (src/Parser.c:686-729) and `evalS` (src/Parser.c:672-683),
mutually recursive on a fuel bound (the C code recurses unboundedly; `none`
models non-termination/stack exhaustion).  `evalExpr` ignores `parseExpr`'s
boolean result — on failure the output buffers still hold the empty strings
they were initialized to, so evaluation proceeds with
`(left, op, right) = ("", "", "")`.  The `&&` branch stores the two codes
in `l_code`/`r_code` but falls through to the final `return 0`. -/
def evalExpr : Nat → ConstTbl → List Nat → Option (Nat × ConstTbl)
  | 0, _, _ => none
  | fuel + 1, tbl, expr =>
    let evalStmt : ConstTbl → List Nat → Option (Nat × ConstTbl) := fun tb s =>
      let r := parseS s
      if r.1 = false then some (1, tb)
      else if r.2.2.1.length = 0 then evalExpr fuel tb r.2.1
      else (evalInvoke tb r.2.2.2).map (fun c => (c, tb))
    if expr.length = 0 then some (0, tbl)
    else
      let p := (parseExpr expr).getD ([], [], [])
      let left := p.1
      let op := p.2.1
      let right := p.2.2
      if op.length = 0 then evalStmt tbl expr
      else if right.length = 0 then some (1, tbl)
      else if op = ofStr "&&" then
        match evalStmt tbl left with
        | none => none
        | some (lc, tbl1) =>
          if lc = 0 then
            match evalExpr fuel tbl1 right with
            | none => none
            | some (_, tbl2) => some (0, tbl2)
          else some (0, tbl1)
      else if op = ofStr "||" then
        match evalStmt tbl left with
        | none => none
        | some (lc, tbl1) =>
          if lc = 0 then some (0, tbl1) else evalExpr fuel tbl1 right
      else if op = ofStr ";" then
        match evalStmt tbl left with
        | none => none
        | some (_, tbl1) => evalExpr fuel tbl1 right
      else if op = ofStr "=" then
        match addConst tbl left right with
        | (false, tbl1) => some (1, tbl1)
        | (true, tbl1) => some (0, tbl1)
      else some (0, tbl)

/-- `evalS` (src/Parser.c:672-683): classify the statement with `parseS`;
a parse failure yields 1; an empty command output means a braced
expression, evaluated recursively; otherwise the (NUL-truncated) statement
is handed to `evalInvoke`. -/
def evalS (fuel : Nat) (tbl : ConstTbl) (s : List Nat) : Option (Nat × ConstTbl) :=
  let r := parseS s
  if r.1 = false then some (1, tbl)
  else if r.2.2.1.length = 0 then evalExpr fuel tbl r.2.1
  else (evalInvoke tbl r.2.2.2).map (fun c => (c, tbl))

/-! ## Helper lemmas -/

/-- A successful `addConst` call appends the pair to the table. -/
theorem addConst_ok_eq (tbl : ConstTbl) (k v : List Nat)
    (h : (addConst tbl k v).1 = true) :
    addConst tbl k v = (true, tbl ++ [(k, v)]) := by
  unfold addConst at h ⊢
  split_ifs at h ⊢ <;> simp_all

/-- `getConst` on a table with one more entry at the back: earlier entries
still win; the new entry is only reached when its key was absent. -/
theorem getConst_append (tbl : ConstTbl) (key val q : List Nat) :
    getConst (tbl ++ [(key, val)]) q =
      if q ∈ tbl.map Prod.fst then getConst tbl q
      else if q = key then val else [] := by
  induction tbl with
  | nil => simp [getConst]
  | cons e rest ih =>
    obtain ⟨k0, v0⟩ := e
    by_cases hq : q = k0
    · subst hq
      simp [getConst]
    · by_cases hmem : q ∈ List.map Prod.fst rest <;>
        simp [getConst, hq, hmem, ih]

/-- Lookup of a key not present in the table yields the blank string. -/
theorem getConst_eq_nil_of_not_mem (tbl : ConstTbl) (q : List Nat)
    (h : q ∉ tbl.map Prod.fst) : getConst tbl q = [] := by
  induction tbl with
  | nil => rfl
  | cons e rest ih =>
    obtain ⟨k0, v0⟩ := e
    simp only [List.map_cons, List.mem_cons, not_or] at h
    simp [getConst, h.1, ih h.2]

/-! ## C1: `&&` operator semantics -/

/-- C1: in `evalExpr`'s `&&` branch the codes `l_code`/`r_code` are
computed but the branch falls through to the final `return 0`
(src/Parser.c:702-707, 728).  For `x && y &&`: the left operand `x `
evaluates to 0, the right operand is `y &&` and evaluates to 1 (missing
right-hand expression), yet the whole expression returns 0 instead of the
right operand's result 1. -/
theorem andOp_falls_through_to_zero :
    parseExpr (ofStr "x && y &&") =
      some (ofStr "x ", ofStr "&&", ofStr "y &&") ∧
    evalExpr 10 (init (ofStr "/repo")) (ofStr "y &&") =
      some (1, init (ofStr "/repo")) ∧
    evalExpr 10 (init (ofStr "/repo")) (ofStr "x && y &&") =
      some (0, init (ofStr "/repo")) := by decide

/-! ## C2: the operator recognizer -/

/-- C2: `isOp` accepts `;`, `&&`, `||` but rejects `=` — the single
character switch (src/Parser.c:141-147) has a case only for `;`, so the
`=` assignment branch of `evalExpr` is unreachable.  The pipe is accepted
by `isPipe` and rejected by `isOp`. -/
theorem isOp_rejects_assignment_token :
    isOp (ofStr "=") = false ∧ isOp (ofStr ";") = true ∧
    isOp (ofStr "&&") = true ∧ isOp (ofStr "||") = true ∧
    isOp (ofStr "|") = false ∧ isPipe (ofStr "|") = true := by decide

/-! ## C3: assignment round-trip -/

/-- C3: evaluating `A = hello` returns 0 but leaves the constant table
unchanged (the text is treated as a plain invocation because `isOp`
rejects `=`), so a later `$A` expands to the empty string, not to
`hello`. -/
theorem assignment_never_defines_constant :
    evalExpr 10 (init (ofStr "/repo")) (ofStr "A = hello") =
      some (0, init (ofStr "/repo")) ∧
    evalArg (init (ofStr "/repo")) (ofStr "$A") = ofStr "" ∧
    ofStr "" ≠ ofStr "hello" := by decide

/-! ## C6: variable expansion -/

/-- C6: `evalArg` copies literal text into `temp` at the *argument's*
offsets (src/Parser.c:581-583), which drift once a substitution changes
the length; expanding `b$A c$A` with `A` undefined yields `b`, dropping
the literal ` c` instead of passing it through verbatim. -/
theorem evalArg_drops_text_between_expansions :
    evalArg (init (ofStr "/repo")) (ofStr "b$A c$A") = ofStr "b" ∧
    ofStr "b" ≠ ofStr "b c" := by decide

/-! ## C10: length guards in `addConst` -/

/-- C10: both length checks of `addConst` precede any mutation, so an
over-long key or value fails and leaves the table untouched. -/
theorem addConst_length_guard (tbl : ConstTbl) (key val : List Nat)
    (h : key.length > 1023 ∨ val.length > 1023) :
    addConst tbl key val = (false, tbl) := by
  by_cases hk : key.length > 1023
  · simp [addConst, hk]
  · have hv : val.length > 1023 := by tauto
    simp [addConst, hk, hv]

/-- Witness for C10 at a concrete 1024-character key. -/
theorem addConst_length_guard_witness :
    ((List.replicate 1024 97 : List Nat).length > 1023 ∨
      ([] : List Nat).length > 1023) ∧
    addConst [] (List.replicate 1024 97) [] = (false, []) :=
  ⟨Or.inl (by rw [List.length_replicate]; omega),
    addConst_length_guard [] (List.replicate 1024 97) []
      (Or.inl (by rw [List.length_replicate]; omega))⟩

/-! ## C7: constant-table invariants -/

/-- C7 counterexample: defining `A` twice stores two entries with the same
key (`addConst` never checks for an existing entry, src/Parser.c:105-110),
so the key list is not duplicate-free, and lookups still return the first
(stale) value. -/
theorem addConst_duplicates_key :
    ¬ (((addConst ((addConst [] (ofStr "A") (ofStr "x")).2)
          (ofStr "A") (ofStr "y")).2.map Prod.fst).Nodup) ∧
    getConst ((addConst ((addConst [] (ofStr "A") (ofStr "x")).2)
          (ofStr "A") (ofStr "y")).2) (ofStr "A") = ofStr "x" := by decide

/-- C7 amended: a successful define appends its pair unconditionally
(duplicating an existing key); lookups are first-match, so earlier entries
shadow later ones, a key absent before the define now yields the new
value, and lookup of a missing key returns the blank string rather than
aborting. -/
theorem constTable_append_first_match (tbl : ConstTbl) (key val : List Nat)
    (h : (addConst tbl key val).1 = true) :
    (addConst tbl key val).2 = tbl ++ [(key, val)] ∧
    (key ∈ tbl.map Prod.fst →
      getConst (addConst tbl key val).2 key = getConst tbl key) ∧
    (key ∉ tbl.map Prod.fst →
      getConst (addConst tbl key val).2 key = val) ∧
    (∀ t : ConstTbl, ∀ q : List Nat, q ∉ t.map Prod.fst → getConst t q = []) := by
  have he := addConst_ok_eq tbl key val h
  refine ⟨by rw [he], ?_, ?_, fun t q hq => getConst_eq_nil_of_not_mem t q hq⟩
  · intro hmem
    rw [he, getConst_append, if_pos hmem]
  · intro hmem
    rw [he, getConst_append, if_neg hmem, if_pos rfl]

/-- Witness for C7's amended claim: redefinition of `A`. -/
theorem constTable_append_first_match_witness :
    ((addConst [(ofStr "A", ofStr "x")] (ofStr "A") (ofStr "y")).1 = true) ∧
    (addConst [(ofStr "A", ofStr "x")] (ofStr "A") (ofStr "y")).2 =
      [(ofStr "A", ofStr "x")] ++ [(ofStr "A", ofStr "y")] ∧
    getConst (addConst [(ofStr "A", ofStr "x")] (ofStr "A") (ofStr "y")).2
      (ofStr "A") = getConst [(ofStr "A", ofStr "x")] (ofStr "A") :=
  ⟨by decide,
    (constTable_append_first_match [(ofStr "A", ofStr "x")] (ofStr "A")
      (ofStr "y") (by decide)).1,
    (constTable_append_first_match [(ofStr "A", ofStr "x")] (ofStr "A")
      (ofStr "y") (by decide)).2.1 (by decide)⟩

/-! ## C4: `evalInvoke` always returns 0 -/

/-- C4 counterexample: on `a | | b` the C code reaches
`strncpy(cmds[1], s + 4, (size_t)(-1))` inside `parseInvoke`
(src/Parser.c:493) — a negative-length copy, i.e. a crash, not a 0
return. -/
theorem evalInvoke_crashes_on_double_pipe :
    evalInvoke (init (ofStr "/repo")) (ofStr "a | | b") = none ∧
    evalInvoke (init (ofStr "/repo")) (ofStr "a | | b") ≠ some 0 := by decide

/-- C4 amended: whenever `evalInvoke` returns at all (its `parseInvoke`
call does not run into the negative-length copy), the result is 0: both
its `numCmds == 0` return and its final placeholder return yield 0, and no
command is ever handed to process execution. -/
theorem evalInvoke_zero_when_defined (tbl : ConstTbl) (s : List Nat) (r : Nat)
    (hlen : s.length ≤ 1023) (h : evalInvoke tbl s = some r) : r = 0 := by
  unfold evalInvoke at h
  cases hpi : parseInvoke s <;> rw [hpi] at h <;> simp_all

/-- Witness for C4's amended claim at the invocation `echo`. -/
theorem evalInvoke_zero_when_defined_witness :
    (ofStr "echo").length ≤ 1023 ∧
    evalInvoke (init (ofStr "/repo")) (ofStr "echo") = some 0 ∧ (0 : Nat) = 0 :=
  ⟨by decide, by decide,
    evalInvoke_zero_when_defined (init (ofStr "/repo")) (ofStr "echo") 0
      (by decide) (by decide)⟩

/-! ## C9: dangling pipe detection -/

/-- A whitespace skip starting on a non-whitespace character stays put. -/
theorem skipWs_of_nonspace (s : List Nat) (i stop : Nat)
    (h : ¬ isspace (at0 s i) = true) : skipWs s i stop = i := by
  unfold skipWs
  cases hf : stop + 1 - i with
  | zero => rfl
  | succ k => simp [skipWsGo, h]

/-- The token scan never moves backwards. -/
theorem skipTokGo_ge (s : List Nat) (stop : Nat) :
    ∀ fuel i, i ≤ skipTokGo s stop fuel i := by
  intro fuel
  induction fuel with
  | zero => intro i; exact Nat.le_refl i
  | succ k ih =>
    intro i
    unfold skipTokGo
    split
    · exact Nat.le_trans (Nat.le_succ i) (ih (i + 1))
    · exact Nat.le_refl i

/-- Reading position 0 of a non-trivial prefix gives the original first
byte. -/
theorem at0_take_zero (s : List Nat) (n : Nat) (h : 1 ≤ n) :
    at0 (s.take n) 0 = at0 s 0 := by
  cases s with
  | nil => simp
  | cons c rest =>
    cases n with
    | zero => omega
    | succ m => simp [at0]

/-- C9 counterexample: on ` | cmd` (one space before the pipe) the pipe
token's left segment is empty after trimming, yet `parseInvoke` succeeds
and emits an empty first command segment instead of a DanglingPipe error —
its guard `i == -1` (src/Parser.c:484) only fires when the pipe starts at
index 0 of the raw text. -/
theorem parseInvoke_empty_segment_after_space_pipe :
    parseInvoke (ofStr " | cmd") = .ok [[], ofStr "cmd"] 1 ∧
    parseInvoke (ofStr " | cmd") ≠ .err := by decide

/-- C9 amended: the dangling-pipe error fires when the pipe token begins
at the very first character of the invocation text (no characters, not
even whitespace, before it). -/
theorem parseInvoke_err_of_pipe_at_start (s : List Nat)
    (hlen : s.length ≤ 1023) (h : at0 s 0 = 124) :
    parseInvoke s = .err := by
  have hs0 : ¬ s.length = 0 := by
    intro he
    rw [List.length_eq_zero] at he
    rw [he] at h
    simp [at0] at h
  have hns : ¬ isspace (at0 s 0) = true := by rw [h]; decide
  have hp1 : ∀ p2 : Nat, skipWs s 0 p2 = 0 := fun p2 => skipWs_of_nonspace s 0 p2 hns
  have ht2 : ∀ p2 : Nat, 1 ≤ skipTok s 0 p2 := by
    intro p2
    unfold skipTok
    rw [Nat.sub_zero]
    unfold skipTokGo
    rw [if_pos ⟨Nat.zero_le _, hns⟩]
    exact skipTokGo_ge s p2 p2 1
  have htok : ∀ p2 : Nat, isPipe (substr s 0 (skipTok s 0 p2)) = true := by
    intro p2
    unfold isPipe
    rw [substr, List.drop_zero, Nat.sub_zero, at0_take_zero s _ (ht2 p2), h]
    decide
  unfold parseInvoke
  rw [if_neg hs0]
  simp only [hp1]
  rw [if_neg (by omega : ¬ (0 : Nat) > trimEndIdx s 0 (s.length - 1))]
  have hfs : s.length + 2 = (s.length + 1) + 1 := rfl
  rw [hfs]
  unfold piLoop
  rw [if_neg (by omega : ¬ (0 : Nat) > trimEndIdx s 0 (s.length - 1))]
  simp only [hp1, htok, if_pos]

/-- Witness for C9's amended claim at the invocation `|x`. -/
theorem parseInvoke_err_of_pipe_at_start_witness :
    (ofStr "|x").length ≤ 1023 ∧ at0 (ofStr "|x") 0 = 124 ∧
    parseInvoke (ofStr "|x") = PIResult.err :=
  ⟨by decide, by decide,
    parseInvoke_err_of_pipe_at_start (ofStr "|x") (by decide) (by decide)⟩

/-! ## C8: braced statement classification -/

/-- Leading-whitespace removal exposes the trimmed text's first
character and its tail. -/
theorem cTrim_eq_cons (s : List Nat) (c : Nat) (m : List Nat)
    (hd : s.dropWhile isspace = c :: m) (hc : isspace c = false) :
    cTrim s = c :: (m.reverse.dropWhile isspace).reverse := by
  unfold cTrim
  rw [hd, List.reverse_cons, List.dropWhile_append]
  by_cases hm : (List.dropWhile isspace m.reverse).isEmpty
  · rw [if_pos hm]
    rw [List.isEmpty_iff] at hm
    rw [hm]
    simp [List.dropWhile, hc]
  · rw [if_neg hm]
    simp

/-- The C read `s[pos2]` of the last character of a nonempty range is the
list's last element. -/
theorem at0_eq_getLast (t : List Nat) (h : t ≠ []) :
    at0 t (t.length - 1) = (t.getLast?).getD 0 := by
  induction t with
  | nil => exact absurd rfl h
  | cons x tail ih =>
    cases tail with
    | nil => rfl
    | cons y rest =>
      have hne : (y :: rest : List Nat) ≠ [] := by simp
      have hx := ih hne
      simp only [List.length_cons, Nat.add_sub_cancel] at hx ⊢
      rw [List.getLast?_cons_cons]
      rw [← hx]
      simp [at0]

/-- The trimmed text's last character is the last non-whitespace character
of the leading-trimmed input. -/
theorem cTrim_getLast (s : List Nat) :
    (cTrim s).getLast? = ((s.dropWhile isspace).reverse.dropWhile isspace).head? :=
  List.getLast?_reverse _

/-- C8 counterexample: `parseS` never calls `matchBrace`; it only checks
that the last non-whitespace character is *some* `}` (src/Parser.c:424).
On `{a} {b}` the brace matching the leading `{` sits at index 2, not at
the last position 6, so the claim demands an UnbalancedBrace failure — yet
classification succeeds, with inner text `a} {b`.  Moreover on `{ a }` the
inner text keeps its leading space (only trailing whitespace is
re-trimmed, src/Parser.c:431-432). -/
theorem parseS_accepts_nonmatching_last_brace :
    parseS (ofStr "\x7ba\x7d \x7bb\x7d") =
      (true, ofStr "a\x7d \x7bb", [], ofStr "\x7ba\x7d \x7b") ∧
    matchBrace (ofStr "\x7ba\x7d \x7bb\x7d") 0 6 = some 2 ∧
    (2 : Nat) ≠ 6 ∧
    parseS (ofStr "\x7b a \x7d") = (true, ofStr " a", [], ofStr "\x7b ") := by
  decide

/-- C8 amended: for a statement with no operator substring (which would
reroute it to expression evaluation) whose first non-whitespace character
is `{`: classification succeeds as a braced expression exactly when the
last non-whitespace character is a `}` — any closing brace, not
necessarily the matching one — and fails otherwise; on success the inner
text with the braces stripped and its trailing (not leading) whitespace
trimmed is what `evalS` recursively evaluates through `evalExpr`. -/
theorem parseS_braced_any_last_brace (s : List Nat) (fuel : Nat) (tbl : ConstTbl)
    (hlen : s.length ≤ 1023)
    (hop : containsOp s = false)
    (hhead : (s.dropWhile isspace).head? = some 123) :
    ((((s.dropWhile isspace).reverse.dropWhile isspace).head? = some 125) →
      parseS s = (true, innerTrim (((cTrim s).drop 1).dropLast), [],
        s.take (innerTrim (((cTrim s).drop 1).dropLast)).length) ∧
      evalS fuel tbl s = evalExpr fuel tbl (innerTrim (((cTrim s).drop 1).dropLast))) ∧
    ((((s.dropWhile isspace).reverse.dropWhile isspace).head? ≠ some 125) →
      parseS s = (false, [], [], s) ∧
      evalS fuel tbl s = some (1, tbl)) := by
  obtain ⟨m, hd⟩ : ∃ m, s.dropWhile isspace = 123 :: m := by
    cases hdw : s.dropWhile isspace with
    | nil => rw [hdw] at hhead; simp at hhead
    | cons c m =>
      rw [hdw] at hhead
      simp at hhead
      exact ⟨m, by rw [hhead]⟩
  have hct : cTrim s = 123 :: (m.reverse.dropWhile isspace).reverse :=
    cTrim_eq_cons s 123 m hd (by decide)
  have hs0 : ¬ s.length = 0 := by
    intro he
    rw [List.length_eq_zero] at he
    rw [he] at hd
    simp at hd
  have htne : cTrim s ≠ [] := by rw [hct]; simp
  have hhd : at0 (cTrim s) 0 = 123 := by rw [hct]; rfl
  have hlast : at0 (cTrim s) ((cTrim s).length - 1) =
      (((s.dropWhile isspace).reverse.dropWhile isspace).head?).getD 0 := by
    rw [at0_eq_getLast _ htne, cTrim_getLast]
  constructor
  · intro h125
    have hl : at0 (cTrim s) ((cTrim s).length - 1) = 125 := by
      rw [hlast, h125]; rfl
    have hps : parseS s = (true, innerTrim (((cTrim s).drop 1).dropLast), [],
        s.take (innerTrim (((cTrim s).drop 1).dropLast)).length) := by
      unfold parseS
      rw [if_neg hs0]
      simp only [hop, Bool.false_eq_true, if_false, if_neg (by simp : ¬ False)]
      rw [if_pos hhd]
      rw [if_neg (by rw [hl]; simp : ¬ at0 (cTrim s) ((cTrim s).length - 1) ≠ 125)]
    refine ⟨hps, ?_⟩
    unfold evalS
    rw [hps]
    simp
  · intro h125
    have hl : at0 (cTrim s) ((cTrim s).length - 1) ≠ 125 := by
      rw [hlast]
      intro hcon
      apply h125
      cases hgl : ((s.dropWhile isspace).reverse.dropWhile isspace).head? with
      | none =>
        exfalso
        rw [← cTrim_getLast] at hgl
        rw [List.getLast?_eq_none_iff] at hgl
        exact htne hgl
      | some v =>
        rw [hgl] at hcon
        simp at hcon
        rw [hcon]
    have hps : parseS s = (false, [], [], s) := by
      unfold parseS
      rw [if_neg hs0]
      simp only [hop, Bool.false_eq_true, if_false, if_neg (by simp : ¬ False)]
      rw [if_pos hhd]
      rw [if_pos hl]
    refine ⟨hps, ?_⟩
    unfold evalS
    rw [hps]
    simp

/-- Witness for C8's amended claim at the statement `{ a }`. -/
theorem parseS_braced_any_last_brace_witness :
    parseS (ofStr "\x7b a \x7d") =
      (true, innerTrim (((cTrim (ofStr "\x7b a \x7d")).drop 1).dropLast), [],
        (ofStr "\x7b a \x7d").take
          (innerTrim (((cTrim (ofStr "\x7b a \x7d")).drop 1).dropLast)).length) ∧
    evalS 3 [] (ofStr "\x7b a \x7d") =
      evalExpr 3 [] (innerTrim (((cTrim (ofStr "\x7b a \x7d")).drop 1).dropLast)) :=
  (parseS_braced_any_last_brace (ofStr "\x7b a \x7d") 3 [] (by decide)
    (by decide) (by decide)).1 (by decide)

/-! ## C5: leftmost operator split in `parseExpr` -/
theorem wsTokens_nil_of_all_space (l : List Nat)
    (h : ∀ c ∈ l, isspace c = true) : wsTokens l = [] := by
  have hd : l.dropWhile isspace = [] := List.dropWhile_eq_nil_iff.mpr h
  rw [wsTokens]
  rw [dif_pos (by rw [hd]; rfl)]

theorem dropWhile_append_of_all_space (sp xs : List Nat)
    (h : ∀ c ∈ sp, isspace c = true) :
    (sp ++ xs).dropWhile isspace = xs.dropWhile isspace := by
  induction sp with
  | nil => rfl
  | cons c m ih =>
    simp only [List.cons_append, List.dropWhile_cons]
    rw [h c (by simp)]
    simp only [if_true]
    exact ih (fun d hd => h d (by simp [hd]))

theorem dropWhile_space_of_nonspace_head (tok rest : List Nat)
    (htne : tok ≠ []) (htok : ∀ c ∈ tok, isspace c = false) :
    (tok ++ rest).dropWhile isspace = tok ++ rest := by
  cases tok with
  | nil => exact absurd rfl htne
  | cons c m =>
    simp only [List.cons_append, List.dropWhile_cons]
    rw [htok c (by simp)]
    simp

theorem takeWhile_nonspace_append (tok rest : List Nat)
    (htok : ∀ c ∈ tok, isspace c = false)
    (hrest : ∀ hd, rest.head? = some hd → isspace hd = true) :
    (tok ++ rest).takeWhile (fun c => !isspace c) = tok ∧
    (tok ++ rest).dropWhile (fun c => !isspace c) = rest := by
  induction tok with
  | nil =>
    simp only [List.nil_append]
    cases rest with
    | nil => exact ⟨rfl, rfl⟩
    | cons h t =>
      have := hrest h rfl
      constructor
      · rw [List.takeWhile_cons]
        simp [this]
      · rw [List.dropWhile_cons]
        simp [this]
  | cons c m ih =>
    have hc := htok c (by simp)
    have ihm := ih (fun d hd => htok d (by simp [hd]))
    constructor
    · simp only [List.cons_append, List.takeWhile_cons, hc]
      simp only [Bool.not_false, if_true]
      rw [ihm.1]
    · simp only [List.cons_append, List.dropWhile_cons, hc]
      simp only [Bool.not_false, if_true]
      exact ihm.2

theorem wsTokens_compose (sp tok rest : List Nat)
    (hsp : ∀ c ∈ sp, isspace c = true)
    (htne : tok ≠ [])
    (htok : ∀ c ∈ tok, isspace c = false)
    (hrest : ∀ hd, rest.head? = some hd → isspace hd = true) :
    wsTokens (sp ++ tok ++ rest) = tok :: wsTokens rest := by
  have hdw : (sp ++ tok ++ rest).dropWhile isspace = tok ++ rest := by
    rw [List.append_assoc, dropWhile_append_of_all_space sp (tok ++ rest) hsp,
      dropWhile_space_of_nonspace_head tok rest htne htok]
  have htw := takeWhile_nonspace_append tok rest htok hrest
  rw [wsTokens]
  rw [dif_neg (by rw [hdw, htw.1]; exact htne)]
  rw [hdw, htw.1, htw.2]

theorem wsTokens_all_space_prefix (sp xs : List Nat)
    (hsp : ∀ c ∈ sp, isspace c = true) :
    wsTokens (sp ++ xs) = wsTokens xs := by
  conv_lhs => rw [wsTokens]
  conv_rhs => rw [wsTokens]
  rw [dropWhile_append_of_all_space sp xs hsp]

theorem scan_split_length (cs : List Nat)
    (htok : (cs.dropWhile isspace).takeWhile (fun c => !isspace c) ≠ []) :
    ((cs.dropWhile isspace).dropWhile (fun c => !isspace c)).length < cs.length := by
  have h1 : ((cs.dropWhile isspace).takeWhile (fun c => !isspace c)).length +
      ((cs.dropWhile isspace).dropWhile (fun c => !isspace c)).length =
      (cs.dropWhile isspace).length := by
    have h0 := congrArg List.length (List.takeWhile_append_dropWhile
      (p := fun c => !isspace c) (l := cs.dropWhile isspace))
    simp only [List.length_append] at h0
    exact h0
  have h2 : (cs.dropWhile isspace).length ≤ cs.length := by
    have h0 := congrArg List.length (List.takeWhile_append_dropWhile
      (p := isspace) (l := cs))
    simp only [List.length_append] at h0
    omega
  have h3 : 0 < ((cs.dropWhile isspace).takeWhile (fun c => !isspace c)).length :=
    List.length_pos.mpr htok
  omega

theorem wsTokens_cons_of_scan (cs : List Nat)
    (htok : (cs.dropWhile isspace).takeWhile (fun c => !isspace c) ≠ []) :
    wsTokens cs =
      ((cs.dropWhile isspace).takeWhile (fun c => !isspace c)) ::
        wsTokens ((cs.dropWhile isspace).dropWhile (fun c => !isspace c)) := by
  have hcs : cs = cs.takeWhile isspace ++
      ((cs.dropWhile isspace).takeWhile (fun c => !isspace c) ++
        (cs.dropWhile isspace).dropWhile (fun c => !isspace c)) := by
    rw [List.takeWhile_append_dropWhile, List.takeWhile_append_dropWhile]
  conv_lhs => rw [hcs, ← List.append_assoc]
  exact wsTokens_compose _ _ _
    (fun c hc => List.mem_takeWhile_imp hc)
    htok
    (fun c hc => by
      have := List.mem_takeWhile_imp hc
      simpa using this)
    (fun hd hhd => by
      have := List.head?_dropWhile_not (fun c => !isspace c) (cs.dropWhile isspace)
      rw [hhd] at this
      simpa using this)

-- the two scanForOpGo spec lemmas
theorem scanForOpGo_none_spec : ∀ fuel cs, cs.length < fuel →
    scanForOpGo fuel cs = none →
    ∀ tk ∈ wsTokens cs, isOp tk = false := by
  intro fuel
  induction fuel with
  | zero => intro cs h; omega
  | succ f ih =>
    intro cs hlen hscan
    rw [scanForOpGo] at hscan
    by_cases htok : (cs.dropWhile isspace).takeWhile (fun c => !isspace c) = []
    · intro tk htk
      rw [wsTokens, dif_pos htok] at htk
      simp at htk
    · rw [if_neg htok] at hscan
      by_cases hop : isOp ((cs.dropWhile isspace).takeWhile (fun c => !isspace c)) = true
      · rw [if_pos hop] at hscan
        exact absurd hscan (by simp)
      · rw [if_neg hop] at hscan
        have hlt : ((cs.dropWhile isspace).dropWhile (fun c => !isspace c)).length < f := by
          have := scan_split_length cs htok
          omega
        have hrec : scanForOpGo f ((cs.dropWhile isspace).dropWhile (fun c => !isspace c)) = none := by
          cases hr : scanForOpGo f ((cs.dropWhile isspace).dropWhile (fun c => !isspace c)) with
          | none => rfl
          | some v =>
            obtain ⟨pre, op, post⟩ := v
            rw [hr] at hscan
            simp at hscan
        intro tk htk
        rw [wsTokens_cons_of_scan cs htok] at htk
        rcases List.mem_cons.mp htk with heq | hmem
        · rw [heq]
          exact Bool.not_eq_true _ ▸ (by simpa using hop)
        · exact ih _ hlt hrec tk hmem

theorem scanForOpGo_some_spec : ∀ fuel cs pre op post, cs.length < fuel →
    scanForOpGo fuel cs = some (pre, op, post) →
    cs = pre ++ op ++ post ∧ isOp op = true ∧
    wsTokens cs = wsTokens pre ++ op :: wsTokens post ∧
    (∀ tk ∈ wsTokens pre, isOp tk = false) := by
  intro fuel
  induction fuel with
  | zero => intro cs pre op post h; omega
  | succ f ih =>
    intro cs pre op post hlen hscan
    rw [scanForOpGo] at hscan
    by_cases htok : (cs.dropWhile isspace).takeWhile (fun c => !isspace c) = []
    · rw [if_pos htok] at hscan
      exact absurd hscan (by simp)
    · rw [if_neg htok] at hscan
      have hcs : cs = cs.takeWhile isspace ++
          ((cs.dropWhile isspace).takeWhile (fun c => !isspace c) ++
            (cs.dropWhile isspace).dropWhile (fun c => !isspace c)) := by
        rw [List.takeWhile_append_dropWhile, List.takeWhile_append_dropWhile]
      have hsp : ∀ c ∈ cs.takeWhile isspace, isspace c = true :=
        fun c hc => List.mem_takeWhile_imp hc
      have htoknb : ∀ c ∈ (cs.dropWhile isspace).takeWhile (fun c => !isspace c),
          isspace c = false := fun c hc => by
        have := List.mem_takeWhile_imp hc
        simpa using this
      have hr2hd : ∀ hd, ((cs.dropWhile isspace).dropWhile (fun c => !isspace c)).head? =
          some hd → isspace hd = true := fun hd hhd => by
        have := List.head?_dropWhile_not (fun c => !isspace c) (cs.dropWhile isspace)
        rw [hhd] at this
        simpa using this
      by_cases hop : isOp ((cs.dropWhile isspace).takeWhile (fun c => !isspace c)) = true
      · rw [if_pos hop] at hscan
        simp only [Option.some.injEq, Prod.mk.injEq] at hscan
        obtain ⟨hA, hB, hC⟩ := hscan
        subst hA hB hC
        refine ⟨?_, hop, ?_, ?_⟩
        · conv_lhs => rw [hcs]
          rw [List.append_assoc]
        · rw [wsTokens_cons_of_scan cs htok,
            wsTokens_nil_of_all_space (cs.takeWhile isspace) hsp]
          rfl
        · rw [wsTokens_nil_of_all_space (cs.takeWhile isspace) hsp]
          intro tk htk
          simp at htk
      · rw [if_neg hop] at hscan
        have hlt : ((cs.dropWhile isspace).dropWhile (fun c => !isspace c)).length < f := by
          have := scan_split_length cs htok
          omega
        cases hr : scanForOpGo f ((cs.dropWhile isspace).dropWhile (fun c => !isspace c)) with
        | none =>
          rw [hr] at hscan
          exact absurd hscan (by simp)
        | some v =>
          obtain ⟨preR, opR, postR⟩ := v
          rw [hr] at hscan
          simp only [Option.some.injEq, Prod.mk.injEq] at hscan
          obtain ⟨hA, hB, hC⟩ := hscan
          subst hA hB hC
          obtain ⟨ih1, ih2, ih3, ih4⟩ := ih _ preR opR postR hlt hr
          have hprehd : ∀ hd, preR.head? = some hd → isspace hd = true := by
            intro hd hhd
            apply hr2hd hd
            rw [ih1, List.append_assoc, List.head?_append]
            rw [hhd]
            rfl
          have hcomp : wsTokens (cs.takeWhile isspace ++
              (cs.dropWhile isspace).takeWhile (fun c => !isspace c) ++ preR) =
              ((cs.dropWhile isspace).takeWhile (fun c => !isspace c)) :: wsTokens preR :=
            wsTokens_compose _ _ _ hsp htok htoknb hprehd
          refine ⟨?_, ih2, ?_, ?_⟩
          · conv_lhs => rw [hcs, ih1]
            simp [List.append_assoc]
          · rw [wsTokens_cons_of_scan cs htok, ih3, hcomp]
            rfl
          · rw [hcomp]
            intro tk htk
            rcases List.mem_cons.mp htk with heq | hmem
            · rw [heq]
              simpa using hop
            · exact ih4 tk hmem

theorem mbGo_le (s : List Nat) : ∀ fuel count i maxPos k, i ≤ maxPos →
    mbGo s fuel count i maxPos = some k → k ≤ maxPos := by
  intro fuel
  induction fuel with
  | zero =>
    intro count i maxPos k hi h
    rw [mbGo] at h
    by_cases hc : count = 0
    · rw [if_pos hc] at h
      cases h
      exact hi
    · rw [if_neg hc] at h
      exact absurd h (by simp)
  | succ f ih =>
    intro count i maxPos k hi h
    rw [mbGo] at h
    by_cases hc : count = 0
    · rw [if_pos hc] at h
      cases h
      exact hi
    · rw [if_neg hc] at h
      by_cases hlt : i < maxPos
      · rw [if_pos hlt] at h
        exact ih _ (i + 1) maxPos k hlt h
      · rw [if_neg hlt] at h
        exact absurd h (by simp)

theorem scanStart_le (t : List Nat) (j : Nat) (htne : t ≠ [])
    (hj : scanStart t = some j) : j ≤ t.length := by
  unfold scanStart at hj
  by_cases hb : at0 t 0 = 123
  · rw [if_pos hb] at hj
    unfold matchBrace at hj
    rw [if_neg (by simpa using hb)] at hj
    cases hmb : mbGo t (t.length - 1 - 0) 1 0 (t.length - 1) with
    | none => rw [hmb] at hj; exact absurd hj (by simp)
    | some mb =>
      rw [hmb] at hj
      simp at hj
      have hle := mbGo_le t _ 1 0 (t.length - 1) mb (Nat.zero_le _) hmb
      have hlp : 0 < t.length := List.length_pos.mpr htne
      omega
  · rw [if_neg hb] at hj
    simp only [Option.some.injEq] at hj
    omega

/-- C5 counterexample: on `a {x ; y} ; b` the leftmost operator token at
brace depth 0 is the second `;` (the first sits inside `{x ; y}`), so the
claim requires the split `(a {x ; y}, ;, b)`; but `parseExpr` only jumps a
braced region at the very start of the expression (src/Parser.c:266-275),
so its token scan runs straight into the braces and splits at the first
`;` — inside the braced region. -/
theorem parseExpr_splits_inside_braces :
    parseExpr (ofStr "a \x7bx ; y\x7d ; b") =
      some (ofStr "a \x7bx ", ofStr ";", ofStr "y\x7d ; b") ∧
    parseExpr (ofStr "a \x7bx ; y\x7d ; b") ≠
      some (ofStr "a \x7bx ; y\x7d", ofStr ";", ofStr "b") ∧
    parseExpr (ofStr "a \x7bx ; y\x7d ; b") ≠
      some (ofStr "a \x7bx ; y\x7d ", ofStr ";", ofStr "b") := by decide

/-- C5 amended: after trimming, `parseExpr` skips a braced region only at
the very start of the expression (scan start `j` as computed by
`scanStart`); from there it splits at the **leftmost** whitespace-delimited
operator token of the remaining text, regardless of brace depth — never by
operator precedence.  Precisely: the returned operator is an operator
token, everything the scan consumed before it contains no operator token,
the returned pieces reassemble to the trimmed expression (the operator is
followed by skipped whitespace `mid`), and the token sequence of the
scanned region is the tokens of the left remainder, then the operator,
then the tokens of the right expression.  When no token is an operator,
the whole trimmed text is returned as the statement. -/
theorem parseExpr_splits_at_first_scanned_op (expr : List Nat)
    (hlen : expr.length ≤ 1023)
    (ht : cTrim expr ≠ [])
    (j : Nat) (hj : scanStart (cTrim expr) = some j) :
    ∃ l op r, parseExpr expr = some (l, op, r) ∧
      (op = [] → l = cTrim expr ∧ r = [] ∧
        ∀ tk ∈ wsTokens ((cTrim expr).drop j), isOp tk = false) ∧
      (op ≠ [] → isOp op = true ∧
        (∃ mid, (∀ c ∈ mid, isspace c = true) ∧
          cTrim expr = l ++ op ++ mid ++ r) ∧
        l.take j = (cTrim expr).take j ∧
        (∀ tk ∈ wsTokens (l.drop j), isOp tk = false) ∧
        wsTokens ((cTrim expr).drop j) =
          wsTokens (l.drop j) ++ op :: wsTokens r) := by
  have hexne : ¬ expr.length = 0 := by
    intro h
    rw [List.length_eq_zero] at h
    apply ht
    rw [h]
    rfl
  have htne0 : ¬ (cTrim expr).length = 0 := by
    simpa using ht
  cases hscan : scanForOp ((cTrim expr).drop j) with
  | none =>
    have hpe : parseExpr expr = some (cTrim expr, [], []) := by
      unfold parseExpr
      simp only [if_neg hexne, if_neg htne0, hj, hscan]
    refine ⟨cTrim expr, [], [], hpe, fun _ => ⟨rfl, rfl, ?_⟩, fun habs => absurd rfl habs⟩
    have hnone : scanForOpGo (((cTrim expr).drop j).length + 1) ((cTrim expr).drop j) = none :=
      hscan
    exact scanForOpGo_none_spec _ _ (Nat.lt_succ_self _) hnone
  | some v =>
    obtain ⟨pre, op0, post⟩ := v
    have hpe : parseExpr expr =
        some ((cTrim expr).take j ++ pre, op0, post.dropWhile isspace) := by
      unfold parseExpr
      simp only [if_neg hexne, if_neg htne0, hj, hscan]
    obtain ⟨hsplit, hisop, hws, hpre⟩ :=
      scanForOpGo_some_spec (((cTrim expr).drop j).length + 1) ((cTrim expr).drop j)
        pre op0 post (Nat.lt_succ_self _) hscan
    have hopne : op0 ≠ [] := by
      intro h
      rw [h] at hisop
      exact absurd hisop (by decide)
    have hjle : j ≤ (cTrim expr).length := scanStart_le (cTrim expr) j ht hj
    have hlentake : ((cTrim expr).take j).length = j := by
      rw [List.length_take]
      omega
    have hdropl : ((cTrim expr).take j ++ pre).drop j = pre := by
      have hx := List.drop_left ((cTrim expr).take j) pre
      rw [hlentake] at hx
      exact hx
    have hwpost : wsTokens post = wsTokens (post.dropWhile isspace) := by
      conv_lhs => rw [← List.takeWhile_append_dropWhile (p := isspace) (l := post)]
      exact wsTokens_all_space_prefix _ _ (fun c hc => List.mem_takeWhile_imp hc)
    refine ⟨(cTrim expr).take j ++ pre, op0, post.dropWhile isspace, hpe,
      fun habs => absurd habs hopne, fun _ => ⟨hisop, ⟨post.takeWhile isspace,
        fun c hc => List.mem_takeWhile_imp hc, ?_⟩, ?_, ?_, ?_⟩⟩
    · conv_lhs => rw [← List.take_append_drop j (cTrim expr), hsplit]
      rw [← List.takeWhile_append_dropWhile (p := isspace) (l := post)]
      simp [List.append_assoc]
    · have hx := List.take_left ((cTrim expr).take j) pre
      rw [hlentake] at hx
      exact hx
    · rw [hdropl]
      exact hpre
    · rw [hdropl, hws, hwpost]

/-- Witness for C5's amended claim at the expression `a ; b && c` (whose
scan start is 0): the split happens at the `;`, leftmost-first rather than
by precedence. -/
theorem parseExpr_splits_at_first_scanned_op_witness :
    cTrim (ofStr "a ; b && c") ≠ [] ∧
    scanStart (cTrim (ofStr "a ; b && c")) = some 0 ∧
    (∃ l op r, parseExpr (ofStr "a ; b && c") = some (l, op, r) ∧
      (op = [] → l = cTrim (ofStr "a ; b && c") ∧ r = [] ∧
        ∀ tk ∈ wsTokens ((cTrim (ofStr "a ; b && c")).drop 0), isOp tk = false) ∧
      (op ≠ [] → isOp op = true ∧
        (∃ mid, (∀ c ∈ mid, isspace c = true) ∧
          cTrim (ofStr "a ; b && c") = l ++ op ++ mid ++ r) ∧
        l.take 0 = (cTrim (ofStr "a ; b && c")).take 0 ∧
        (∀ tk ∈ wsTokens (l.drop 0), isOp tk = false) ∧
        wsTokens ((cTrim (ofStr "a ; b && c")).drop 0) =
          wsTokens (l.drop 0) ++ op :: wsTokens r)) :=
  ⟨by decide, by decide,
    parseExpr_splits_at_first_scanned_op (ofStr "a ; b && c") (by decide)
      (by decide) 0 (by decide)⟩

end Soyshell
